import Mathlib

/-!
# phidgets_digital_inputs: `DigitalInputsRosI`

A shallow embedding of `src/phidgets_digital_inputs/src/digital_inputs_ros_i.cpp`.

The adapter object is a record holding the channel table `val_to_pubs_`, the
configured `publish_rate_`, and a trace of the externally visible steps the
member functions perform (mutex operations, accesses of the channel table,
calls into the middleware).  Member functions are state transformers in the
`Except Fault` monad; a `Fault` stands for an execution that does not return
normally.
-/

namespace phidgets

/-! ## Machine integers -/

/-- Largest value of the C++ type `int` (32 bit). -/
def INT_MAX : Int := 2147483647

/-- The conversion `static_cast<int>(n)` of a `size_t` value: reduction modulo
`2^32` into the range `-2^31 .. 2^31 - 1`. -/
def static_cast_int (n : Nat) : Int :=
  ((n : Int) + 2147483648) % 4294967296 - 2147483648

/-- The implicit conversion of an `int` subscript to the `size_t` parameter of
`std::vector::operator[]`: reduction modulo `2^64`. -/
def to_size_t (i : Int) : Nat :=
  (i % 18446744073709551616).toNat

/-! ## Data model -/

/-- A `ros::Publisher`, identified by the topic it was advertised on.  The
default-constructed publisher has the empty topic. -/
structure Publisher where
  topic : String
deriving DecidableEq, Repr

/-- The record `ValToPub` kept for each input channel. -/
structure ValToPub where
  pub : Publisher
  last_val : Bool
deriving DecidableEq, Repr

/-- A value-initialised `ValToPub`, as produced by `std::vector::resize`. -/
def ValToPub.init : ValToPub := ⟨⟨""⟩, false⟩

/-- Externally visible steps of the member functions, in program order. -/
inductive Event where
  /-- `std::lock_guard<std::mutex> lock(di_mutex_)` acquires the mutex. -/
  | lock
  /-- The `lock_guard` goes out of scope and releases `di_mutex_`. -/
  | unlock
  /-- `val_to_pubs_.size()` is read. -/
  | size_read
  /-- `val_to_pubs_.resize(n)`. -/
  | resize (n : Nat)
  /-- A field of `val_to_pubs_[i]` is read. -/
  | rec_read (i : Nat)
  /-- A field of `val_to_pubs_[i]` is written. -/
  | rec_write (i : Nat)
  /-- `nh_.advertise<std_msgs::Bool>(topic, 1)`. -/
  | advertise (topic : String)
  /-- `nh_.createTimer(...)` registers `timerCallback`. -/
  | createTimer
  /-- `pub.publish(msg)` with `msg.data = data`. -/
  | publish (pub : Publisher) (data : Bool)
deriving DecidableEq, Repr

/-- Ways in which an execution fails to return normally. -/
inductive Fault where
  /-- `val_to_pubs_[i]` with `i` outside the vector: undefined behaviour. -/
  | out_of_bounds
  /-- `std::length_error` thrown by `std::vector::resize`. -/
  | length_error
  /-- The step bound a loop of the model was given is used up.  The bounds
  given are not reached for tables whose size fits in an `int`, see
  `timerCallback_ok` and `construct_ok`. -/
  | out_of_fuel
deriving DecidableEq, Repr

/-- The members of `DigitalInputsRosI` that the member functions touch,
together with the trace of steps performed so far. -/
structure DigitalInputsRosI where
  val_to_pubs_ : List ValToPub
  publish_rate_ : Int
  trace : List Event
deriving DecidableEq, Repr

/-- The device handle `DigitalInputs` of `phidgets_api`, as far as the adapter
uses it: the channel count and the current reading of each channel. -/
structure DigitalInputs where
  getInputCount : Int
  getInputValue : Int → Bool

namespace DigitalInputsRosI

/-- Append one step to the trace. -/
def log (s : DigitalInputsRosI) (e : Event) : DigitalInputsRosI :=
  { s with trace := s.trace ++ [e] }

/-- Read access `val_to_pubs_[index]` (unchecked `operator[]`). -/
def read_rec (s : DigitalInputsRosI) (index : Int) :
    Except Fault (ValToPub × DigitalInputsRosI) :=
  match s.val_to_pubs_[to_size_t index]? with
  | some r => .ok (r, s.log (.rec_read (to_size_t index)))
  | none => .error .out_of_bounds

/-- The assignment `val_to_pubs_[index].last_val = v`. -/
def set_last_val (s : DigitalInputsRosI) (index : Int) (v : Bool) :
    Except Fault DigitalInputsRosI :=
  match s.val_to_pubs_[to_size_t index]? with
  | some r =>
    .ok ({ s with val_to_pubs_ :=
            s.val_to_pubs_.set (to_size_t index) { r with last_val := v } }.log
          (.rec_write (to_size_t index)))
  | none => .error .out_of_bounds

/-- The assignment `val_to_pubs_[index].pub = p`. -/
def set_pub (s : DigitalInputsRosI) (index : Int) (p : Publisher) :
    Except Fault DigitalInputsRosI :=
  match s.val_to_pubs_[to_size_t index]? with
  | some r =>
    .ok ({ s with val_to_pubs_ :=
            s.val_to_pubs_.set (to_size_t index) { r with pub := p } }.log
          (.rec_write (to_size_t index)))
  | none => .error .out_of_bounds

/-- The call `val_to_pubs_.resize(n)` with an `int` argument.  A negative `n`
converts to a `size_t` above `max_size()`, for which `resize` throws
`std::length_error`. -/
def resize (s : DigitalInputsRosI) (n : Int) : Except Fault DigitalInputsRosI :=
  if n < 0 then .error .length_error
  else
    .ok ({ s with val_to_pubs_ :=
            s.val_to_pubs_.take n.toNat ++
              List.replicate (n.toNat - s.val_to_pubs_.length) ValToPub.init }.log
          (.resize n.toNat))

/-- `DigitalInputsRosI::publishLatest`, lines 83-88. -/
def publishLatest (index : Int) (s : DigitalInputsRosI) :
    Except Fault DigitalInputsRosI := do
  let (r, s) ← s.read_rec index     -- msg.data = val_to_pubs_[index].last_val
  let data := r.last_val
  let (r, s) ← s.read_rec index     -- val_to_pubs_[index].pub
  pure (s.log (.publish r.pub data))

/-- The loop of `timerCallback`, lines 93-96: the condition re-reads
`val_to_pubs_.size()` before every iteration. -/
def timerLoop : Nat → Int → DigitalInputsRosI → Except Fault DigitalInputsRosI
  | 0, _, _ => .error .out_of_fuel
  | fuel + 1, i, s =>
    let s := s.log .size_read
    if i < static_cast_int s.val_to_pubs_.length then do
      let s ← publishLatest i s
      timerLoop fuel (i + 1) s
    else pure s

/-- `DigitalInputsRosI::timerCallback`, lines 90-97.  The loop is given one
more step than the table has records. -/
def timerCallback (s : DigitalInputsRosI) : Except Fault DigitalInputsRosI := do
  let s := s.log .lock
  let s ← timerLoop (s.val_to_pubs_.length + 1) 0 s
  pure (s.log .unlock)

/-- `DigitalInputsRosI::stateChangeCallback`, lines 99-111. -/
def stateChangeCallback (index input_value : Int) (s : DigitalInputsRosI) :
    Except Fault DigitalInputsRosI := do
  let s := s.log .size_read
  if static_cast_int s.val_to_pubs_.length > index then
    let s := s.log .lock
    let s ← s.set_last_val index (decide (input_value = 0))
    let s ← (if s.publish_rate_ ≤ 0 then publishLatest index s else pure s)
    pure (s.log .unlock)
  else pure s

/-! ## Construction -/

/-- The conversion `%02d` of `printf`: the decimal digits of `i`, zero-padded
on the left to a minimum width of two characters, the sign counting towards
the width. -/
def fmt_02d (i : Int) : List Char :=
  if i < 0 then
    let ds := Nat.toDigits 10 i.natAbs
    '-' :: (List.replicate (1 - ds.length) '0' ++ ds)
  else
    let ds := Nat.toDigits 10 i.toNat
    List.replicate (2 - ds.length) '0' ++ ds

/-- The call `snprintf(buf, size, ...)`, given the characters the format
produces: at most `size - 1` of them are stored, followed by the terminating
NUL. -/
def snprintf (size : Nat) (formatted : List Char) : List Char :=
  formatted.take (size - 1)

/-- The local array `char topicname[] = "digital_input00"`: its `sizeof`
counts the terminating NUL. -/
def sizeof_topicname : Nat := "digital_input00".length + 1

/-- Lines 60-61: the content of `topicname` after
`snprintf(topicname, sizeof(topicname), "digital_input%02d", i)`. -/
def topicname (i : Int) : String :=
  String.mk (snprintf sizeof_topicname ("digital_input".data ++ fmt_02d i))

/-- The first loop of the constructor, lines 58-64. -/
def advertiseLoop (dis : DigitalInputs) (n_in : Int) :
    Nat → Int → DigitalInputsRosI → Except Fault DigitalInputsRosI
  | 0, _, _ => .error .out_of_fuel
  | fuel + 1, i, s =>
    if i < n_in then do
      let s := s.log (.advertise (topicname i))
      let s ← s.set_pub i ⟨topicname i⟩
      let s ← s.set_last_val i (dis.getInputValue i)
      advertiseLoop dis n_in fuel (i + 1) s
    else pure s

/-- The second loop of the constructor, lines 76-79. -/
def publishLoop (n_in : Int) :
    Nat → Int → DigitalInputsRosI → Except Fault DigitalInputsRosI
  | 0, _, _ => .error .out_of_fuel
  | fuel + 1, i, s =>
    if i < n_in then do
      let s ← publishLatest i s
      publishLoop n_in fuel (i + 1) s
    else pure s

/-- The constructor `DigitalInputsRosI::DigitalInputsRosI`, lines 13-81, from
the value of the `publish_rate` parameter (if set) and the attached device.
Both loops are given one more step than `n_in` counts. -/
def construct (publish_rate : Option Int) (dis : DigitalInputs) :
    Except Fault DigitalInputsRosI := do
  let s : DigitalInputsRosI :=
    { val_to_pubs_ := [], publish_rate_ := publish_rate.getD 0, trace := [] }
  let s := s.log .lock
  let n_in := dis.getInputCount
  let s ← s.resize n_in
  let s ← advertiseLoop dis n_in (n_in.toNat + 1) 0 s
  let s ←
    (if s.publish_rate_ > 0 then pure (s.log .createTimer)
     else publishLoop n_in (n_in.toNat + 1) 0 s)
  pure (s.log .unlock)

end DigitalInputsRosI

/-- Topics passed to `nh_.advertise`, in order: the `advertise` steps of a
trace. -/
def advertised : List Event → List String
  | [] => []
  | .advertise name :: es => name :: advertised es
  | _ :: es => advertised es

/-- Messages handed to the output sinks, in order: the `publish` steps of a
trace. -/
def messages : List Event → List (Publisher × Bool)
  | [] => []
  | .publish p d :: es => (p, d) :: messages es
  | _ :: es => messages es

/-- The message `publishLatest` sends for a record. -/
def msg_of (r : ValToPub) : Publisher × Bool := (r.pub, r.last_val)

/-- The record the constructor sets up for channel `i`. -/
def init_rec (dis : DigitalInputs) (i : Nat) : ValToPub :=
  ⟨⟨DigitalInputsRosI.topicname i⟩, dis.getInputValue i⟩

/-- Lock discipline of a trace: every access of the channel table (its size,
a resize, a read or a write of a record) happens while `di_mutex_` is held.
The first argument says whether the mutex is held at the start. -/
def guarded : Bool → List Event → Bool
  | _, [] => true
  | _, .lock :: es => guarded true es
  | _, .unlock :: es => guarded false es
  | held, .size_read :: es => held && guarded held es
  | held, .resize _ :: es => held && guarded held es
  | held, .rec_read _ :: es => held && guarded held es
  | held, .rec_write _ :: es => held && guarded held es
  | held, .advertise _ :: es => guarded held es
  | held, .createTimer :: es => guarded held es
  | held, .publish _ _ :: es => guarded held es

/-! ## The specification's topic names -/

/-- The decimal numeral of `i`, zero-padded on the left to `width` digits. -/
def zero_padded (width i : Nat) : String :=
  String.mk (List.replicate (width - (Nat.repr i).length) '0') ++ Nat.repr i

/-- The topic name the specification gives channel `i`: the fixed text
`digital_input` followed by the index, zero-padded to two digits. -/
def spec_topic (i : Nat) : String := "digital_input" ++ zero_padded 2 i

/-- The number written in the characters of a topic name that follow the
thirteen characters of `digital_input`. -/
def channel_of (name : String) : Nat :=
  (name.data.drop 13).foldl (fun a c => 10 * a + (c.toNat - 48)) 0

/-! ## Sample objects -/

/-- An event-driven adapter with one channel whose last value is `true`. -/
def table1 : DigitalInputsRosI :=
  { val_to_pubs_ := [⟨⟨"digital_input00"⟩, true⟩], publish_rate_ := 0, trace := [] }

/-- A periodic adapter (10 Hz) with two channels. -/
def table2 : DigitalInputsRosI :=
  { val_to_pubs_ := [⟨⟨"digital_input00"⟩, true⟩, ⟨⟨"digital_input01"⟩, false⟩],
    publish_rate_ := 10, trace := [] }

/-- A device with three channels, of which only channel 1 reads `true`. -/
def dev3 : DigitalInputs := ⟨3, fun i => decide (i = 1)⟩

/-- A device with 101 channels, all reading `false`. -/
def dev101 : DigitalInputs := ⟨101, fun _ => false⟩

/-! ## Basic facts -/

theorem static_cast_int_of_le (n : Nat) (h : (n : Int) ≤ INT_MAX) :
    static_cast_int n = n := by
  unfold static_cast_int
  unfold INT_MAX at h
  omega

theorem static_cast_int_le (n : Nat) : static_cast_int n ≤ n := by
  unfold static_cast_int
  omega

theorem static_cast_int_le_max (n : Nat) : static_cast_int n ≤ INT_MAX := by
  unfold static_cast_int INT_MAX
  omega

theorem to_size_t_of_nonneg (i : Int) (h0 : 0 ≤ i) (h1 : i ≤ INT_MAX) :
    to_size_t i = i.toNat := by
  unfold to_size_t
  unfold INT_MAX at h1
  omega

theorem messages_append (xs ys : List Event) :
    messages (xs ++ ys) = messages xs ++ messages ys := by
  induction xs with
  | nil => rfl
  | cons e es ih => cases e <;> simp [messages, ih]

namespace DigitalInputsRosI

/-- What `publishLatest` does on a subscript inside the table. -/
theorem publishLatest_ok (s : DigitalInputsRosI) (index : Int) (r : ValToPub)
    (hr : s.val_to_pubs_[to_size_t index]? = some r) :
    publishLatest index s = .ok
      { s with trace := s.trace ++
          [.rec_read (to_size_t index), .rec_read (to_size_t index),
           .publish r.pub r.last_val] } := by
  simp [publishLatest, read_rec, log, hr, bind, Except.bind, pure, Except.pure]

/-- What `stateChangeCallback` does when the guard of line 101 lets a
non-negative subscript through. -/
theorem stateChangeCallback_pass (s : DigitalInputsRosI) (index input_value : Int)
    (r : ValToPub) (h0 : 0 ≤ index) (hc : static_cast_int s.val_to_pubs_.length > index)
    (hr : s.val_to_pubs_[index.toNat]? = some r) :
    stateChangeCallback index input_value s = .ok
      { val_to_pubs_ :=
          s.val_to_pubs_.set index.toNat { r with last_val := decide (input_value = 0) }
        publish_rate_ := s.publish_rate_
        trace := s.trace ++ [.size_read, .lock, .rec_write index.toNat] ++
          (if s.publish_rate_ ≤ 0 then
            [.rec_read index.toNat, .rec_read index.toNat,
             .publish r.pub (decide (input_value = 0))]
           else []) ++ [.unlock] } := by
  have hmax := static_cast_int_le_max s.val_to_pubs_.length
  have hk : index.toNat < s.val_to_pubs_.length := by
    have := static_cast_int_le s.val_to_pubs_.length
    omega
  have hi : to_size_t index = index.toNat := to_size_t_of_nonneg index h0 (by omega)
  unfold stateChangeCallback
  simp only [log, hc, if_true, set_last_val, hi, hr, bind, Except.bind, pure, Except.pure]
  by_cases hp : s.publish_rate_ ≤ 0
  · rw [if_pos hp, if_pos hp]
    rw [publishLatest_ok _ index { r with last_val := decide (input_value = 0) }
      (by simp [hi, List.getElem?_set_self hk])]
    simp [hi]
  · rw [if_neg hp, if_neg hp]
    simp

/-- What `stateChangeCallback` does when the guard of line 101 rejects the
subscript. -/
theorem stateChangeCallback_skip (s : DigitalInputsRosI) (index input_value : Int)
    (hc : ¬ static_cast_int s.val_to_pubs_.length > index) :
    stateChangeCallback index input_value s = .ok (s.log .size_read) := by
  unfold stateChangeCallback
  simp only [log, hc, if_false, pure, Except.pure]

/-- What `stateChangeCallback` does on a subscript inside a table whose size
fits in an `int`. -/
theorem stateChangeCallback_ok (s : DigitalInputsRosI) (index input_value : Int)
    (r : ValToPub) (hN : (s.val_to_pubs_.length : Int) ≤ INT_MAX) (h0 : 0 ≤ index)
    (h1 : index < s.val_to_pubs_.length)
    (hr : s.val_to_pubs_[index.toNat]? = some r) :
    stateChangeCallback index input_value s = .ok
      { val_to_pubs_ :=
          s.val_to_pubs_.set index.toNat { r with last_val := decide (input_value = 0) }
        publish_rate_ := s.publish_rate_
        trace := s.trace ++ [.size_read, .lock, .rec_write index.toNat] ++
          (if s.publish_rate_ ≤ 0 then
            [.rec_read index.toNat, .rec_read index.toNat,
             .publish r.pub (decide (input_value = 0))]
           else []) ++ [.unlock] } :=
  stateChangeCallback_pass s index input_value r h0
    (by rw [static_cast_int_of_le _ hN]; exact h1) hr

/-- A subscript at or above the table size is rejected by the guard: the table
is left as it is and nothing is sent. -/
theorem stateChangeCallback_above (s : DigitalInputsRosI) (index input_value : Int)
    (h : (s.val_to_pubs_.length : Int) ≤ index) :
    ∃ s', stateChangeCallback index input_value s = .ok s' ∧
      s'.val_to_pubs_ = s.val_to_pubs_ ∧ messages s'.trace = messages s.trace := by
  refine ⟨s.log .size_read, stateChangeCallback_skip s index input_value ?_, rfl, ?_⟩
  · have := static_cast_int_le s.val_to_pubs_.length
    omega
  · simp [log, messages_append, messages]

/-- For a non-negative subscript `stateChangeCallback` returns, and the table
keeps its size, every record keeps its publisher, and every record other than
the one at the subscript keeps its last value. -/
theorem stateChangeCallback_frame (s : DigitalInputsRosI) (index input_value : Int)
    (h0 : 0 ≤ index) :
    ∃ s', stateChangeCallback index input_value s = .ok s' ∧
      s'.val_to_pubs_.length = s.val_to_pubs_.length ∧
      (∀ k : Nat, (s'.val_to_pubs_[k]?).map (·.pub) = (s.val_to_pubs_[k]?).map (·.pub)) ∧
      (∀ k : Nat, k ≠ index.toNat → s'.val_to_pubs_[k]? = s.val_to_pubs_[k]?) ∧
      s'.publish_rate_ = s.publish_rate_ := by
  by_cases hc : static_cast_int s.val_to_pubs_.length > index
  · have hk : index.toNat < s.val_to_pubs_.length := by
      have := static_cast_int_le s.val_to_pubs_.length
      omega
    refine ⟨_, stateChangeCallback_pass s index input_value s.val_to_pubs_[index.toNat]
      h0 hc (List.getElem?_eq_getElem hk), ?_, ?_, ?_, rfl⟩
    · simp
    · intro k
      by_cases hk2 : index.toNat = k
      · subst hk2
        simp [List.getElem?_set_self hk, List.getElem?_eq_getElem hk]
      · simp [List.getElem?_set_ne hk2]
    · intro k hk2
      simp [List.getElem?_set_ne (Ne.symm hk2)]
  · exact ⟨_, stateChangeCallback_skip s index input_value hc, rfl, fun _ => rfl,
      fun _ _ => rfl, rfl⟩

/-- One step of the loop of `timerCallback`. -/
theorem timerLoop_succ (f : Nat) (i : Int) (s : DigitalInputsRosI) :
    timerLoop (f + 1) i s =
      (if i < static_cast_int s.val_to_pubs_.length then
        publishLatest i (s.log .size_read) >>= timerLoop f (i + 1)
       else .ok (s.log .size_read)) := rfl

/-- One step of the first loop of the constructor. -/
theorem advertiseLoop_succ (dis : DigitalInputs) (n_in : Int) (f : Nat) (i : Int)
    (s : DigitalInputsRosI) :
    advertiseLoop dis n_in (f + 1) i s =
      (if i < n_in then
        (s.log (.advertise (topicname i))).set_pub i ⟨topicname i⟩ >>= fun s =>
          s.set_last_val i (dis.getInputValue i) >>= advertiseLoop dis n_in f (i + 1)
       else .ok s) := rfl

/-- One step of the second loop of the constructor. -/
theorem publishLoop_succ (n_in : Int) (f : Nat) (i : Int) (s : DigitalInputsRosI) :
    publishLoop n_in (f + 1) i s =
      (if i < n_in then publishLatest i s >>= publishLoop n_in f (i + 1)
       else .ok s) := rfl

/-- The loop of `timerCallback`, started at the position `done.length` of the
table `done ++ rest` with more fuel than `rest` has records, returns with the
table unchanged after sending one message per record of `rest`, in order. -/
theorem timerLoop_ok (rate : Int) :
    ∀ (rest done : List ValToPub) (tr : List Event) (fuel : Nat),
      ((done ++ rest).length : Int) ≤ INT_MAX → rest.length < fuel →
      ∃ tr', timerLoop fuel done.length ⟨done ++ rest, rate, tr⟩
          = .ok ⟨done ++ rest, rate, tr ++ tr'⟩ ∧
        messages tr' = rest.map msg_of ∧
        ∀ e ∈ tr', e ≠ .lock ∧ e ≠ .unlock := by
  intro rest
  induction rest with
  | nil =>
    intro done tr fuel hN hf
    obtain ⟨f, rfl⟩ : ∃ f, fuel = f + 1 := ⟨fuel - 1, by simp at hf; omega⟩
    refine ⟨[.size_read], ?_, by simp [messages], by simp⟩
    have hc : ¬ ((done.length : Int) < static_cast_int (done ++ []).length) := by
      rw [static_cast_int_of_le _ hN]; simp
    rw [timerLoop_succ]
    simp only [log, hc, if_false, pure, Except.pure]
  | cons r rs ih =>
    intro done tr fuel hN hf
    obtain ⟨f, rfl⟩ : ∃ f, fuel = f + 1 := ⟨fuel - 1, by simp at hf; omega⟩
    have hlen : ((done ++ r :: rs).length : Int) = done.length + rs.length + 1 := by
      simp; omega
    have hc : (done.length : Int) < static_cast_int (done ++ r :: rs).length := by
      rw [static_cast_int_of_le _ hN, hlen]; omega
    have hi : to_size_t (done.length : Int) = done.length := by
      rw [to_size_t_of_nonneg _ (by omega) (by omega)]; simp
    have hr : (done ++ r :: rs)[to_size_t (done.length : Int)]? = some r := by
      rw [hi, List.getElem?_append_right (Nat.le_refl _)]; simp
    have hsplit : done ++ r :: rs = (done ++ [r]) ++ rs := by simp
    have hnext : (done.length : Int) + 1 = ((done ++ [r]).length : Nat) := by simp
    obtain ⟨tr', h1, h2, h3⟩ := ih (done ++ [r])
      (tr ++ [.size_read] ++ [.rec_read done.length, .rec_read done.length,
        .publish r.pub r.last_val]) f (by rw [← hsplit]; exact hN)
      (by simp at hf; omega)
    refine ⟨[.size_read, .rec_read done.length, .rec_read done.length,
        .publish r.pub r.last_val] ++ tr', ?_, ?_, ?_⟩
    · rw [timerLoop_succ]
      simp only [log, hc, if_true, bind, Except.bind]
      rw [publishLatest_ok _ _ r hr]
      simp only [hi, hnext]
      rw [hsplit, h1]
      simp
    · simp [messages, h2, msg_of]
    · intro e he
      simp only [List.mem_append, List.mem_cons, List.mem_singleton] at he
      rcases he with (rfl | rfl | rfl | rfl | he) | he
      · simp
      · simp
      · simp
      · simp
      · simp at he
      · exact h3 e he

/-- The body of `timerCallback`. -/
theorem timerCallback_eq (s : DigitalInputsRosI) :
    timerCallback s =
      (timerLoop ((s.log .lock).val_to_pubs_.length + 1) 0 (s.log .lock) >>= fun s =>
        pure (s.log .unlock)) := rfl

/-- What `timerCallback` does on a table whose size fits in an `int`. -/
theorem timerCallback_ok (s : DigitalInputsRosI)
    (hN : (s.val_to_pubs_.length : Int) ≤ INT_MAX) :
    ∃ tr', timerCallback s
        = .ok { s with trace := s.trace ++ [.lock] ++ tr' ++ [.unlock] } ∧
      messages tr' = s.val_to_pubs_.map msg_of ∧
      ∀ e ∈ tr', e ≠ .lock ∧ e ≠ .unlock := by
  obtain ⟨tbl, rate, tr⟩ := s
  have hN2 : ((([] : List ValToPub) ++ tbl).length : Int) ≤ INT_MAX := by simpa using hN
  obtain ⟨tr', h1, h2, h3⟩ := timerLoop_ok rate tbl [] (tr ++ [.lock])
    (tbl.length + 1) hN2 (Nat.lt_succ_self _)
  refine ⟨tr', ?_, h2, h3⟩
  have e1 : (([] : List ValToPub).length : Int) = 0 := rfl
  have e2 : ([] : List ValToPub) ++ tbl = tbl := rfl
  rw [e1, e2] at h1
  rw [timerCallback_eq]
  simp only [log]
  rw [h1]
  rfl

/-- The first loop of the constructor, started at the position `done.length`
of the table `done ++ rest`, returns after replacing every record of `rest`
by the record set up for its channel, advertising one topic per channel. -/
theorem advertiseLoop_ok (dis : DigitalInputs) (rate : Int) (n_in : Int) :
    ∀ (rest done : List ValToPub) (tr : List Event) (fuel : Nat),
      n_in = ((done ++ rest).length : Nat) → n_in ≤ INT_MAX → rest.length < fuel →
      ∃ tr', advertiseLoop dis n_in fuel done.length ⟨done ++ rest, rate, tr⟩
          = .ok ⟨done ++ (List.range' done.length rest.length).map (init_rec dis),
              rate, tr ++ tr'⟩ ∧
        messages tr' = [] ∧
        advertised tr' =
          (List.range' done.length rest.length).map (fun j => topicname (j : Nat)) ∧
        ∀ e ∈ tr', e ≠ .lock ∧ e ≠ .unlock := by
  intro rest
  induction rest with
  | nil =>
    intro done tr fuel hn hN hf
    obtain ⟨f, rfl⟩ : ∃ f, fuel = f + 1 := ⟨fuel - 1, by simp at hf; omega⟩
    refine ⟨[], ?_, by simp [messages], by simp [advertised], by simp⟩
    have hc : ¬ ((done.length : Int) < n_in) := by rw [hn]; simp
    rw [advertiseLoop_succ]
    simp only [hc, if_false, pure, Except.pure]
    simp
  | cons r rs ih =>
    intro done tr fuel hn hN hf
    obtain ⟨f, rfl⟩ : ∃ f, fuel = f + 1 := ⟨fuel - 1, by simp at hf; omega⟩
    have hlen : ((done ++ r :: rs).length : Int) = done.length + rs.length + 1 := by
      simp; omega
    have hc : (done.length : Int) < n_in := by rw [hn, hlen]; omega
    have hi : to_size_t (done.length : Int) = done.length := by
      rw [to_size_t_of_nonneg _ (by omega) (by omega)]; simp
    have hnext : (done.length : Int) + 1 = ((done ++ [init_rec dis done.length]).length : Nat) := by
      simp
    have hsplit : done ++ init_rec dis done.length :: rs
        = (done ++ [init_rec dis done.length]) ++ rs := by simp
    have hrec : (⟨⟨topicname (done.length : Int)⟩,
        dis.getInputValue (done.length : Int)⟩ : ValToPub) = init_rec dis done.length := rfl
    obtain ⟨tr', h1, h2, h3, h4⟩ := ih (done ++ [init_rec dis done.length])
      (tr ++ [.advertise (topicname done.length)] ++ [.rec_write done.length] ++
        [.rec_write done.length]) f
      (by rw [hn]; simp) hN (by simp at hf; omega)
    refine ⟨[.advertise (topicname done.length), .rec_write done.length,
        .rec_write done.length] ++ tr', ?_, ?_, ?_, ?_⟩
    · rw [advertiseLoop_succ]
      simp only [hc, if_true, log, set_pub, set_last_val, hi, bind, Except.bind]
      simp only [List.getElem?_append_right (Nat.le_refl _), Nat.sub_self,
        List.getElem?_cons_zero, List.set_append_right _ _ (Nat.le_refl _),
        List.set_cons_zero, List.length_append, List.length_cons]
      rw [hnext, hrec, hsplit, h1]
      simp [List.range'_succ]
    · simp [messages, h2]
    · simp [advertised, h3, List.range'_succ]
    · intro e he
      simp only [List.mem_append, List.mem_cons, List.mem_singleton] at he
      rcases he with (rfl | rfl | rfl | he) | he
      · simp
      · simp
      · simp
      · simp at he
      · exact h4 e he

/-- The second loop of the constructor, started at the position `done.length`
of the table `done ++ rest`, returns with the table unchanged after sending
one message per record of `rest`, in order. -/
theorem publishLoop_ok (rate : Int) (n_in : Int) :
    ∀ (rest done : List ValToPub) (tr : List Event) (fuel : Nat),
      n_in = ((done ++ rest).length : Nat) → n_in ≤ INT_MAX → rest.length < fuel →
      ∃ tr', publishLoop n_in fuel done.length ⟨done ++ rest, rate, tr⟩
          = .ok ⟨done ++ rest, rate, tr ++ tr'⟩ ∧
        messages tr' = rest.map msg_of ∧
        advertised tr' = [] ∧
        ∀ e ∈ tr', e ≠ .lock ∧ e ≠ .unlock := by
  intro rest
  induction rest with
  | nil =>
    intro done tr fuel hn hN hf
    obtain ⟨f, rfl⟩ : ∃ f, fuel = f + 1 := ⟨fuel - 1, by simp at hf; omega⟩
    refine ⟨[], ?_, by simp [messages], by simp [advertised], by simp⟩
    have hc : ¬ ((done.length : Int) < n_in) := by rw [hn]; simp
    rw [publishLoop_succ]
    simp only [hc, if_false, pure, Except.pure]
    simp
  | cons r rs ih =>
    intro done tr fuel hn hN hf
    obtain ⟨f, rfl⟩ : ∃ f, fuel = f + 1 := ⟨fuel - 1, by simp at hf; omega⟩
    have hlen : ((done ++ r :: rs).length : Int) = done.length + rs.length + 1 := by
      simp; omega
    have hc : (done.length : Int) < n_in := by rw [hn, hlen]; omega
    have hi : to_size_t (done.length : Int) = done.length := by
      rw [to_size_t_of_nonneg _ (by omega) (by omega)]; simp
    have hr : (done ++ r :: rs)[to_size_t (done.length : Int)]? = some r := by
      rw [hi, List.getElem?_append_right (Nat.le_refl _)]; simp
    have hsplit : done ++ r :: rs = (done ++ [r]) ++ rs := by simp
    have hnext : (done.length : Int) + 1 = ((done ++ [r]).length : Nat) := by simp
    obtain ⟨tr', h1, h2, h3, h4⟩ := ih (done ++ [r])
      (tr ++ [.rec_read done.length, .rec_read done.length,
        .publish r.pub r.last_val]) f (by rw [hn]; simp) hN
      (by simp at hf; omega)
    refine ⟨[.rec_read done.length, .rec_read done.length,
        .publish r.pub r.last_val] ++ tr', ?_, ?_, ?_, ?_⟩
    · rw [publishLoop_succ]
      simp only [hc, if_true, bind, Except.bind]
      rw [publishLatest_ok _ _ r hr]
      simp only [hi, hnext]
      rw [hsplit, h1]
      simp
    · simp [messages, h2, msg_of]
    · simp [advertised, h3]
    · intro e he
      simp only [List.mem_append, List.mem_cons, List.mem_singleton] at he
      rcases he with (rfl | rfl | rfl | he) | he
      · simp
      · simp
      · simp
      · simp at he
      · exact h4 e he

/-- The body of the constructor. -/
theorem construct_eq (publish_rate : Option Int) (dis : DigitalInputs) :
    construct publish_rate dis =
      ((log ⟨[], publish_rate.getD 0, []⟩ .lock).resize dis.getInputCount >>= fun s =>
        advertiseLoop dis dis.getInputCount (dis.getInputCount.toNat + 1) 0 s >>= fun s =>
          (if s.publish_rate_ > 0 then pure (s.log .createTimer)
           else publishLoop dis.getInputCount (dis.getInputCount.toNat + 1) 0 s) >>= fun s =>
            pure (s.log .unlock)) := rfl

theorem advertised_append (xs ys : List Event) :
    advertised (xs ++ ys) = advertised xs ++ advertised ys := by
  induction xs with
  | nil => rfl
  | cons e es ih => cases e <;> simp [advertised, ih]

/-- What the constructor does for a device reporting a channel count in
`0 .. INT_MAX`: it returns, the table holds the record set up for each channel,
one topic per channel was advertised, and the messages sent are one per channel
when `publish_rate_ ≤ 0` and none otherwise.  The mutex is taken first and
released last. -/
theorem construct_ok (publish_rate : Option Int) (dis : DigitalInputs)
    (h0 : 0 ≤ dis.getInputCount) (hN : dis.getInputCount ≤ INT_MAX) :
    ∃ mid, construct publish_rate dis
        = .ok ⟨(List.range dis.getInputCount.toNat).map (init_rec dis),
            publish_rate.getD 0, [.lock] ++ mid ++ [.unlock]⟩ ∧
      messages mid =
        (if publish_rate.getD 0 > 0 then []
         else ((List.range dis.getInputCount.toNat).map (init_rec dis)).map msg_of) ∧
      advertised mid =
        (List.range dis.getInputCount.toNat).map (fun j => topicname (j : Nat)) ∧
      ∀ e ∈ mid, e ≠ .lock ∧ e ≠ .unlock := by
  obtain ⟨n, hn⟩ : ∃ n : Nat, dis.getInputCount = n := ⟨dis.getInputCount.toNat, by omega⟩
  have hneg : ¬ dis.getInputCount < 0 := by omega
  have hnat : dis.getInputCount.toNat = n := by omega
  have hres : (log ⟨[], publish_rate.getD 0, []⟩ .lock).resize dis.getInputCount
      = .ok ⟨List.replicate n ValToPub.init, publish_rate.getD 0, [.lock, .resize n]⟩ := by
    simp [resize, log, hneg, hnat]
  have e1 : (([] : List ValToPub).length : Int) = 0 := rfl
  obtain ⟨tr1, a1, a2, a3, a4⟩ := advertiseLoop_ok dis (publish_rate.getD 0)
      dis.getInputCount (List.replicate n ValToPub.init) [] [.lock, .resize n] (n + 1)
      (by simp [hn]) hN (by simp)
  rw [e1, List.nil_append, List.nil_append, List.length_nil, List.length_replicate,
    ← List.range_eq_range'] at a1
  rw [List.length_nil, List.length_replicate, ← List.range_eq_range'] at a3
  rw [construct_eq, hres, hnat]
  simp only [bind, Except.bind]
  rw [a1]
  simp only []
  by_cases hp : publish_rate.getD 0 > 0
  · refine ⟨[.resize n] ++ tr1 ++ [.createTimer], ?_, ?_, ?_, ?_⟩
    · rw [if_pos hp]
      simp [log, pure, Except.pure]
    · simp [messages_append, messages, a2, hp]
    · simp [advertised_append, advertised, a3]
    · intro e he
      simp only [List.mem_append, List.mem_cons, List.mem_singleton] at he
      rcases he with (he | he) | he
      · rcases he with rfl | he
        · simp
        · simp at he
      · exact a4 e he
      · rcases he with rfl | he
        · simp
        · simp at he
  · obtain ⟨tr2, b1, b2, b3, b4⟩ :=
      publishLoop_ok (publish_rate.getD 0) dis.getInputCount
        ((List.range n).map (init_rec dis)) [] ([.lock, .resize n] ++ tr1) (n + 1)
        (by simp [hn]) hN (by simp)
    rw [e1, List.nil_append] at b1
    refine ⟨[.resize n] ++ tr1 ++ tr2, ?_, ?_, ?_, ?_⟩
    · rw [if_neg hp, b1]
      simp [log, pure, Except.pure]
    · simp [messages_append, messages, a2, b2, hp]
    · simp [advertised_append, advertised, a3, b3]
    · intro e he
      simp only [List.mem_append, List.mem_cons, List.mem_singleton] at he
      rcases he with (he | he) | he
      · rcases he with rfl | he
        · simp
        · simp at he
      · exact a4 e he
      · exact b4 e he

/-- The table the constructor builds has a size that fits in an `int`. -/
theorem construct_size_le (publish_rate : Option Int) (dis : DigitalInputs)
    (h0 : 0 ≤ dis.getInputCount) (hN : dis.getInputCount ≤ INT_MAX) :
    ∃ s, construct publish_rate dis = .ok s ∧
      (s.val_to_pubs_.length : Int) ≤ INT_MAX := by
  obtain ⟨mid, h, -⟩ := construct_ok publish_rate dis h0 hN
  refine ⟨_, h, ?_⟩
  simp only [List.length_map, List.length_range]
  omega

/-! ## Topic names -/

/-- The name built for a channel is the specification's name cut to the 15
characters that fit into `topicname`. -/
theorem topicname_take (i : Nat) :
    topicname (i : Int) = String.mk ((spec_topic i).data.take 15) := by
  have h : ¬ ((i : Int) < 0) := by omega
  have hl : "digital_input00".length = 15 := by decide
  simp [topicname, spec_topic, zero_padded, fmt_02d, snprintf, sizeof_topicname, Nat.repr,
    h, hl, List.asString]

/-- Below 100 the name built for a channel is the specification's name. -/
theorem topicname_small : ∀ i : Nat, i < 100 → topicname (i : Int) = spec_topic i := by
  decide

/-- Below 100 the channel index can be read back from the name. -/
theorem channel_of_topicname :
    ∀ i : Nat, i < 100 → channel_of (topicname (i : Int)) = i := by
  decide

/-! ## Lock discipline of the traces -/

/-- Steps that neither take nor release the mutex are guarded when the mutex
is held. -/
theorem guarded_held (mid rest : List Event)
    (h : ∀ e ∈ mid, e ≠ .lock ∧ e ≠ .unlock) :
    guarded true (mid ++ rest) = guarded true rest := by
  induction mid with
  | nil => rfl
  | cons e es ih =>
    have hes : ∀ x ∈ es, x ≠ .lock ∧ x ≠ .unlock :=
      fun x hx => h x (List.mem_cons_of_mem _ hx)
    have he := h e (List.mem_cons_self _ _)
    cases e <;> simp_all [guarded]

/-- Every table access of `timerCallback` happens with `di_mutex_` held. -/
theorem timerCallback_guarded (s : DigitalInputsRosI)
    (hN : (s.val_to_pubs_.length : Int) ≤ INT_MAX) :
    ∃ s' new, timerCallback s = .ok s' ∧ s'.trace = s.trace ++ new ∧
      guarded false new = true := by
  obtain ⟨tr', h1, -, h3⟩ := timerCallback_ok s hN
  refine ⟨_, [.lock] ++ tr' ++ [.unlock], h1, by simp, ?_⟩
  have := guarded_held tr' [.unlock] h3
  simpa [guarded] using this

/-- Every table access of the constructor happens with `di_mutex_` held. -/
theorem construct_guarded (publish_rate : Option Int) (dis : DigitalInputs)
    (h0 : 0 ≤ dis.getInputCount) (hN : dis.getInputCount ≤ INT_MAX) :
    ∃ s, construct publish_rate dis = .ok s ∧ guarded false s.trace = true := by
  obtain ⟨mid, h1, -, -, h4⟩ := construct_ok publish_rate dis h0 hN
  refine ⟨_, h1, ?_⟩
  have := guarded_held mid [.unlock] h4
  simpa [guarded] using this

/-- In `stateChangeCallback` every table access after the guard of line 101
happens with `di_mutex_` held. -/
theorem stateChangeCallback_guarded_after_guard (s : DigitalInputsRosI)
    (index input_value : Int) (hN : (s.val_to_pubs_.length : Int) ≤ INT_MAX)
    (h0 : 0 ≤ index) (h1 : index < s.val_to_pubs_.length) :
    ∃ s' new, stateChangeCallback index input_value s = .ok s' ∧
      s'.trace = s.trace ++ .size_read :: new ∧ guarded false new = true := by
  have hk : index.toNat < s.val_to_pubs_.length := by omega
  refine ⟨_, [.lock, .rec_write index.toNat] ++
      (if s.publish_rate_ ≤ 0 then
        [.rec_read index.toNat, .rec_read index.toNat,
         .publish s.val_to_pubs_[index.toNat].pub (decide (input_value = 0))]
       else []) ++ [.unlock],
    stateChangeCallback_ok s index input_value s.val_to_pubs_[index.toNat]
      hN h0 h1 (List.getElem?_eq_getElem hk), ?_, ?_⟩
  · simp
  · by_cases hp : s.publish_rate_ ≤ 0 <;> simp [hp, guarded]

/-! ## Properties of the specification -/

/-- C1. For every channel table (of a size that fits in an `int`, as the
constructor builds it), every index with `0 ≤ index < N` and every raw reading,
`stateChangeCallback(index, raw)` returns and leaves the record at `index` with
`last_val = true` when `raw = 0` and `last_val = false` when `raw ≠ 0`, whatever
`publish_rate_` is (periodic or event-driven mode). -/
theorem stateChangeCallback_sets_last_val (s : DigitalInputsRosI)
    (index input_value : Int) (hN : (s.val_to_pubs_.length : Int) ≤ INT_MAX)
    (h0 : 0 ≤ index) (h1 : index < s.val_to_pubs_.length) :
    ∃ s', stateChangeCallback index input_value s = .ok s' ∧
      (input_value = 0 → (s'.val_to_pubs_[index.toNat]?).map (·.last_val) = some true) ∧
      (input_value ≠ 0 → (s'.val_to_pubs_[index.toNat]?).map (·.last_val) = some false) := by
  have hk : index.toNat < s.val_to_pubs_.length := by omega
  refine ⟨_, stateChangeCallback_ok s index input_value s.val_to_pubs_[index.toNat]
    hN h0 h1 (List.getElem?_eq_getElem hk), ?_, ?_⟩
  · intro hv
    simp [List.getElem?_set_self hk, hv]
  · intro hv
    simp [List.getElem?_set_self hk, hv]

/-- Witness of C1: channel 0 of a one-channel table, raw reading 1. -/
theorem stateChangeCallback_sets_last_val_witness :
    ∃ s', stateChangeCallback 0 1 table1 = .ok s' ∧
      ((1 : Int) = 0 → (s'.val_to_pubs_[(0 : Int).toNat]?).map (·.last_val) = some true) ∧
      ((1 : Int) ≠ 0 → (s'.val_to_pubs_[(0 : Int).toNat]?).map (·.last_val) = some false) :=
  stateChangeCallback_sets_last_val table1 0 1 (by decide) (by decide) (by decide)

/-- C2, at the index -1: on a one-channel table `stateChangeCallback(-1, 0)`
passes the guard of line 101 (`1 > -1`) and subscripts the vector outside its
storage, instead of leaving the table alone. -/
theorem stateChangeCallback_negative_index :
    stateChangeCallback (-1) 0 table1 = .error .out_of_bounds := rfl

/-- C3. For every valid index and raw reading: in event-driven mode
(`publish_rate_ ≤ 0`) `stateChangeCallback(index, raw)` sends exactly one
message, to the publisher of the record at `index`, carrying the value it has
just stored (`raw = 0`); in periodic mode (`publish_rate_ > 0`) it sends no
message. -/
theorem stateChangeCallback_messages (s : DigitalInputsRosI)
    (index input_value : Int) (r : ValToPub)
    (hN : (s.val_to_pubs_.length : Int) ≤ INT_MAX)
    (h0 : 0 ≤ index) (h1 : index < s.val_to_pubs_.length)
    (hr : s.val_to_pubs_[index.toNat]? = some r) :
    ∃ s', stateChangeCallback index input_value s = .ok s' ∧
      s'.val_to_pubs_[index.toNat]? = some ⟨r.pub, decide (input_value = 0)⟩ ∧
      (s.publish_rate_ ≤ 0 →
        messages s'.trace = messages s.trace ++ [(r.pub, decide (input_value = 0))]) ∧
      (s.publish_rate_ > 0 → messages s'.trace = messages s.trace) := by
  have hk : index.toNat < s.val_to_pubs_.length := by omega
  refine ⟨_, stateChangeCallback_ok s index input_value r hN h0 h1 hr, ?_, ?_, ?_⟩
  · simp [List.getElem?_set_self hk]
  · intro hp
    simp [messages_append, messages, hp]
  · intro hp
    have hp2 : ¬ s.publish_rate_ ≤ 0 := by omega
    simp [messages_append, messages, hp2]

/-- Witness of C3: channel 1 of a periodic two-channel table, raw reading 0. -/
theorem stateChangeCallback_messages_witness :
    ∃ s', stateChangeCallback 1 0 table2 = .ok s' ∧
      s'.val_to_pubs_[(1 : Int).toNat]? =
        some ⟨(⟨⟨"digital_input01"⟩, false⟩ : ValToPub).pub, decide ((0 : Int) = 0)⟩ ∧
      (table2.publish_rate_ ≤ 0 →
        messages s'.trace = messages table2.trace ++
          [((⟨⟨"digital_input01"⟩, false⟩ : ValToPub).pub, decide ((0 : Int) = 0))]) ∧
      (table2.publish_rate_ > 0 → messages s'.trace = messages table2.trace) :=
  stateChangeCallback_messages table2 1 0 ⟨⟨"digital_input01"⟩, false⟩
    (by decide) (by decide) (by decide) (by decide)

/-- The records of the table the constructor builds. -/
theorem getElem?_init_table (dis : DigitalInputs) (n i : Nat) (hi : i < n) :
    ((List.range n).map (init_rec dis))[i]? = some (init_rec dis i) := by
  simp [List.getElem?_range hi]

/-- C4. For every device reporting `N ≥ 0` channels (an `int`) with current
readings `v_0 .. v_{N-1}`, construction returns with a table of `N` records
whose record `i` holds `last_val = v_i`; when `publish_rate_ ≤ 0` the messages
sent during construction are exactly one per channel, in index order, the
publisher of channel `i` receiving `v_i`; when `publish_rate_ > 0` no message is
sent. -/
theorem construct_seeds_and_publishes (publish_rate : Option Int) (dis : DigitalInputs)
    (h0 : 0 ≤ dis.getInputCount) (hN : dis.getInputCount ≤ INT_MAX) :
    ∃ s, construct publish_rate dis = .ok s ∧
      s.publish_rate_ = publish_rate.getD 0 ∧
      s.val_to_pubs_.length = dis.getInputCount.toNat ∧
      (∀ i : Nat, i < dis.getInputCount.toNat →
        s.val_to_pubs_[i]? = some ⟨⟨topicname i⟩, dis.getInputValue i⟩) ∧
      (s.publish_rate_ ≤ 0 → messages s.trace =
        (List.range dis.getInputCount.toNat).map
          (fun i => ((⟨topicname (i : Nat)⟩ : Publisher), dis.getInputValue (i : Nat)))) ∧
      (s.publish_rate_ > 0 → messages s.trace = []) := by
  obtain ⟨mid, h1, h2, -, -⟩ := construct_ok publish_rate dis h0 hN
  refine ⟨_, h1, rfl, by simp, ?_, ?_, ?_⟩
  · intro i hi
    exact getElem?_init_table dis _ i hi
  · intro hp
    have hp2 : ¬ publish_rate.getD 0 > 0 := by
      have : publish_rate.getD 0 ≤ 0 := hp
      omega
    simp only [messages_append, h2, if_neg hp2]
    simp [messages, List.map_map, msg_of, init_rec, Function.comp_def]
  · intro hp
    have hp2 : publish_rate.getD 0 > 0 := hp
    simp only [messages_append, h2, if_pos hp2]
    simp [messages]

/-- Witness of C4: a three-channel device, `publish_rate` not set. -/
theorem construct_seeds_and_publishes_witness :
    ∃ s, construct none dev3 = .ok s ∧
      s.publish_rate_ = (none : Option Int).getD 0 ∧
      s.val_to_pubs_.length = dev3.getInputCount.toNat ∧
      (∀ i : Nat, i < dev3.getInputCount.toNat →
        s.val_to_pubs_[i]? = some ⟨⟨topicname i⟩, dev3.getInputValue i⟩) ∧
      (s.publish_rate_ ≤ 0 → messages s.trace =
        (List.range dev3.getInputCount.toNat).map
          (fun i => ((⟨topicname (i : Nat)⟩ : Publisher), dev3.getInputValue (i : Nat)))) ∧
      (s.publish_rate_ > 0 → messages s.trace = []) :=
  construct_seeds_and_publishes none dev3 (by decide) (by decide)

/-- Counterexample to C5: for a device reporting 101 channels the topic of
sink 100 is `digital_input10`, which is not `digital_input` followed by the
zero-padded decimal index 100. -/
theorem construct_topic_of_channel_100 :
    ∃ s, construct none dev101 = .ok s ∧
      (s.val_to_pubs_[100]?).map (·.pub.topic) = some "digital_input10" ∧
      (s.val_to_pubs_[100]?).map (·.pub.topic) ≠ some (spec_topic 100) := by
  obtain ⟨mid, h1, -⟩ := construct_ok none dev101 (by decide) (by decide)
  have hn : dev101.getInputCount.toNat = 101 := by decide
  have ht : (init_rec dev101 100).pub.topic = "digital_input10" := by decide
  have hs : ("digital_input10" : String) ≠ spec_topic 100 := by decide
  refine ⟨_, h1, ?_, ?_⟩
  · rw [hn, getElem?_init_table dev101 101 100 (by decide)]
    simp [ht]
  · rw [hn, getElem?_init_table dev101 101 100 (by decide)]
    simp [ht, hs]

/-- C5, amended. For every reported channel count `N ≥ 0` construction creates
exactly `N` output sinks (one `advertise` per record, in index order), and for
every `i` in `0 .. N-1` the topic name of sink `i` is the text `digital_input`
followed by the decimal index zero-padded to two digits, cut to the 15
characters the 16-byte buffer holds; for `i < 100` nothing is cut (channel 0
gives `digital_input00`, channel 3 gives `digital_input03`). -/
theorem construct_topic_names (publish_rate : Option Int) (dis : DigitalInputs)
    (h0 : 0 ≤ dis.getInputCount) (hN : dis.getInputCount ≤ INT_MAX) :
    ∃ s, construct publish_rate dis = .ok s ∧
      s.val_to_pubs_.length = dis.getInputCount.toNat ∧
      (advertised s.trace).length = dis.getInputCount.toNat ∧
      advertised s.trace = s.val_to_pubs_.map (·.pub.topic) ∧
      (∀ i : Nat, i < dis.getInputCount.toNat →
        (s.val_to_pubs_[i]?).map (·.pub.topic)
          = some (String.mk ((spec_topic i).data.take 15))) ∧
      (∀ i : Nat, i < dis.getInputCount.toNat → i < 100 →
        (s.val_to_pubs_[i]?).map (·.pub.topic) = some (spec_topic i)) := by
  obtain ⟨mid, h1, -, h3, -⟩ := construct_ok publish_rate dis h0 hN
  have hadv : advertised ([Event.lock] ++ mid ++ [Event.unlock])
      = (List.range dis.getInputCount.toNat).map (fun j => topicname (j : Nat)) := by
    simp [advertised_append, advertised, h3]
  refine ⟨_, h1, by simp, ?_, ?_, ?_, ?_⟩
  · rw [hadv]; simp
  · rw [hadv]
    simp [List.map_map, init_rec, Function.comp_def]
  · intro i hi
    rw [getElem?_init_table dis _ i hi]
    simp [init_rec, topicname_take]
  · intro i hi hi2
    rw [getElem?_init_table dis _ i hi]
    simp [init_rec, topicname_small i hi2]

/-- Witness of C5, amended: a three-channel device. -/
theorem construct_topic_names_witness :
    ∃ s, construct (some 5) dev3 = .ok s ∧
      s.val_to_pubs_.length = dev3.getInputCount.toNat ∧
      (advertised s.trace).length = dev3.getInputCount.toNat ∧
      advertised s.trace = s.val_to_pubs_.map (·.pub.topic) ∧
      (∀ i : Nat, i < dev3.getInputCount.toNat →
        (s.val_to_pubs_[i]?).map (·.pub.topic)
          = some (String.mk ((spec_topic i).data.take 15))) ∧
      (∀ i : Nat, i < dev3.getInputCount.toNat → i < 100 →
        (s.val_to_pubs_[i]?).map (·.pub.topic) = some (spec_topic i)) :=
  construct_topic_names (some 5) dev3 (by decide) (by decide)

/-- C6. For every channel table of `N` records (a size that fits in an `int`),
one `timerCallback` invocation returns after sending exactly `N` messages, one
per channel in increasing index order, the message for channel `i` carrying that
record's current `last_val` and going to that record's publisher; the table
(every `last_val`, every publisher, the length) is left unchanged. -/
theorem timerCallback_publishes_table (s : DigitalInputsRosI)
    (hN : (s.val_to_pubs_.length : Int) ≤ INT_MAX) :
    ∃ s', timerCallback s = .ok s' ∧
      s'.val_to_pubs_ = s.val_to_pubs_ ∧
      s'.publish_rate_ = s.publish_rate_ ∧
      messages s'.trace =
        messages s.trace ++ s.val_to_pubs_.map (fun r => (r.pub, r.last_val)) ∧
      (s.val_to_pubs_.map (fun r => (r.pub, r.last_val))).length
        = s.val_to_pubs_.length := by
  obtain ⟨tr', h1, h2, -⟩ := timerCallback_ok s hN
  refine ⟨_, h1, rfl, rfl, ?_, by simp⟩
  simp only [messages_append, h2]
  simp [messages, msg_of]

/-- Witness of C6: a two-channel table. -/
theorem timerCallback_publishes_table_witness :
    ∃ s', timerCallback table2 = .ok s' ∧
      s'.val_to_pubs_ = table2.val_to_pubs_ ∧
      s'.publish_rate_ = table2.publish_rate_ ∧
      messages s'.trace =
        messages table2.trace ++ table2.val_to_pubs_.map (fun r => (r.pub, r.last_val)) ∧
      (table2.val_to_pubs_.map (fun r => (r.pub, r.last_val))).length
        = table2.val_to_pubs_.length :=
  timerCallback_publishes_table table2 (by decide)

/-- Counterexample to C7: in event-driven mode `stateChangeCallback(0, 0)` on a
channel whose `last_val` is already `true` sends a message although the value
it stores equals the value held before the call. -/
theorem stateChangeCallback_publishes_same_value :
    ∃ s', stateChangeCallback 0 0 table1 = .ok s' ∧
      table1.publish_rate_ ≤ 0 ∧
      messages s'.trace = messages table1.trace ++ [(⟨"digital_input00"⟩, true)] ∧
      (s'.val_to_pubs_[0]?).map (·.last_val) = (table1.val_to_pubs_[0]?).map (·.last_val) :=
  ⟨_, rfl, by decide, by decide, by decide⟩

/-- C7, amended. In event-driven mode (`publish_rate_ ≤ 0`), for every valid
index and raw reading, `stateChangeCallback(index, raw)` sends one message
carrying the value it stores (`raw = 0`) on every invocation, both when that
value differs from the record's `last_val` before the call and when it does
not: the adapter does not compare with the previous value, output follows the
change notifications of the driver. -/
theorem stateChangeCallback_publishes_every_call (s : DigitalInputsRosI)
    (index input_value : Int) (r : ValToPub)
    (hN : (s.val_to_pubs_.length : Int) ≤ INT_MAX)
    (h0 : 0 ≤ index) (h1 : index < s.val_to_pubs_.length)
    (hr : s.val_to_pubs_[index.toNat]? = some r) (hp : s.publish_rate_ ≤ 0) :
    ∃ s', stateChangeCallback index input_value s = .ok s' ∧
      (r.last_val ≠ decide (input_value = 0) →
        messages s'.trace = messages s.trace ++ [(r.pub, decide (input_value = 0))]) ∧
      (r.last_val = decide (input_value = 0) →
        messages s'.trace = messages s.trace ++ [(r.pub, r.last_val)]) := by
  refine ⟨_, stateChangeCallback_ok s index input_value r hN h0 h1 hr, ?_, ?_⟩
  · intro _
    simp [messages_append, messages, hp]
  · intro hv
    simp [messages_append, messages, hp, hv]

/-- Witness of C7, amended: channel 0 of an event-driven one-channel table. -/
theorem stateChangeCallback_publishes_every_call_witness :
    ∃ s', stateChangeCallback 0 0 table1 = .ok s' ∧
      ((⟨⟨"digital_input00"⟩, true⟩ : ValToPub).last_val ≠ decide ((0 : Int) = 0) →
        messages s'.trace = messages table1.trace ++
          [((⟨⟨"digital_input00"⟩, true⟩ : ValToPub).pub, decide ((0 : Int) = 0))]) ∧
      ((⟨⟨"digital_input00"⟩, true⟩ : ValToPub).last_val = decide ((0 : Int) = 0) →
        messages s'.trace = messages table1.trace ++
          [((⟨⟨"digital_input00"⟩, true⟩ : ValToPub).pub,
            (⟨⟨"digital_input00"⟩, true⟩ : ValToPub).last_val)]) :=
  stateChangeCallback_publishes_every_call table1 0 0 ⟨⟨"digital_input00"⟩, true⟩
    (by decide) (by decide) (by decide) (by decide) (by decide)

/-- C8, at `stateChangeCallback(0, 1)` on a one-channel table: the first step
of the call reads `val_to_pubs_.size()` (line 101) before `di_mutex_` is taken
(line 103), so the trace of the call does not keep the lock discipline. -/
theorem stateChangeCallback_reads_size_unlocked :
    ∃ s', stateChangeCallback 0 1 table1 = .ok s' ∧
      s'.trace = [.size_read, .lock, .rec_write 0, .rec_read 0, .rec_read 0,
        .publish ⟨"digital_input00"⟩ false, .unlock] ∧
      guarded false s'.trace = false :=
  ⟨_, rfl, by decide, by decide⟩

/-- Counterexample to C9: for a device reporting 101 channels, channel 10 and
channel 100 get the same topic name, `digital_input10`. -/
theorem construct_topic_clash :
    ∃ s, construct none dev101 = .ok s ∧
      (s.val_to_pubs_[10]?).map (·.pub.topic) = some "digital_input10" ∧
      (s.val_to_pubs_[100]?).map (·.pub.topic) = some "digital_input10" := by
  obtain ⟨mid, h1, -⟩ := construct_ok none dev101 (by decide) (by decide)
  have hn : dev101.getInputCount.toNat = 101 := by decide
  have ha : (init_rec dev101 10).pub.topic = "digital_input10" := by decide
  have hb : (init_rec dev101 100).pub.topic = "digital_input10" := by decide
  refine ⟨_, h1, ?_, ?_⟩
  · rw [hn, getElem?_init_table dev101 101 10 (by decide)]
    simp [ha]
  · rw [hn, getElem?_init_table dev101 101 100 (by decide)]
    simp [hb]

/-- C9, amended. For every channel count `N ≥ 0` and all indices `i ≠ j` with
`0 ≤ i, j < N` and `i, j < 100`, the topic names the constructor builds for
channel `i` and channel `j` are different strings: the map from index to topic
name is injective on the indices below `min(N, 100)`. -/
theorem construct_distinct_topics (publish_rate : Option Int) (dis : DigitalInputs)
    (h0 : 0 ≤ dis.getInputCount) (hN : dis.getInputCount ≤ INT_MAX) (i j : Nat)
    (hi : i < dis.getInputCount.toNat) (hj : j < dis.getInputCount.toNat)
    (hi2 : i < 100) (hj2 : j < 100) (hij : i ≠ j) :
    ∃ s ri rj, construct publish_rate dis = .ok s ∧
      s.val_to_pubs_[i]? = some ri ∧ s.val_to_pubs_[j]? = some rj ∧
      ri.pub.topic ≠ rj.pub.topic := by
  obtain ⟨mid, h1, -⟩ := construct_ok publish_rate dis h0 hN
  refine ⟨_, init_rec dis i, init_rec dis j, h1, getElem?_init_table dis _ i hi,
    getElem?_init_table dis _ j hj, ?_⟩
  intro h
  apply hij
  have hc : channel_of (topicname (i : Int)) = channel_of (topicname (j : Int)) :=
    congrArg channel_of h
  rw [channel_of_topicname i hi2, channel_of_topicname j hj2] at hc
  exact hc

/-- Witness of C9, amended: channels 0 and 2 of a three-channel device. -/
theorem construct_distinct_topics_witness :
    ∃ s ri rj, construct none dev3 = .ok s ∧
      s.val_to_pubs_[0]? = some ri ∧ s.val_to_pubs_[2]? = some rj ∧
      ri.pub.topic ≠ rj.pub.topic :=
  construct_distinct_topics none dev3 (by decide) (by decide) 0 2
    (by decide) (by decide) (by decide) (by decide) (by decide)

/-- C10, at the index -1: on a two-channel table `stateChangeCallback(-1, 1)`
passes the guard of line 101 (`2 > -1`) and writes through a subscript outside
the vector, so nothing is known about the records afterwards. -/
theorem stateChangeCallback_write_outside_table :
    stateChangeCallback (-1) 1 table2 = .error .out_of_bounds := rfl

end DigitalInputsRosI

end phidgets
